import Mathlib

/-!
Verification of the phone-number normalization pipeline
(`src/my-app/src/app/page.tsx`).

The pipeline is pure: raw text plus a configuration is turned into an
ordered list of parsed records and a grouped-by-country view.  The
numbering-plan authority (the `libphonenumber-js` calls
`parsePhoneNumberFromString` and `isValidNumberForRegion`) is kept
abstract as a structure of deterministic functions, exactly as the spec
treats it (a black-box oracle).  Every other step — tokenization,
cleaning, filtering, deduplication, sorting, grouping — is translated
directly from the source.

JavaScript-specific behaviour is modelled faithfully:
  * the regex class `\s` (used by `split`, `trim` and the embedded-number
    scan) is the full JS whitespace set, including U+00A0;
  * `x || y` on strings is truthiness (empty string counts as absent);
  * `Array.prototype.sort` with the source's comparator is modelled as a
    top-down merge sort driven by the comparator (`cmp a b <= 0` keeps
    `a` first), the standard model of the engine's comparison sort;
  * `matchAll` of `/[+]?\d[\d\s\-()]{5,}\d/g` is implemented as a
    left-to-right scan with the regex's greedy/backtracking semantics.

Recursive functions take an explicit fuel argument equal to the input
length (always sufficient: every step consumes at least one character /
element), so that all definitions are structurally recursive and
evaluate by `decide`.
-/

/-- JS `\d` (the regex digit class): exactly the ASCII digits. -/
def isJsDigit (c : Char) : Bool := '0' ≤ c && c ≤ '9'

/-- JS `\s` (the regex whitespace class, also the set removed by
`String.prototype.trim`): includes the non-breaking space U+00A0. -/
def isJsWs (c : Char) : Bool :=
  c = ' ' || c = '\t' || c = '\n' || c = '\x0b' || c = '\x0c' || c = '\r' ||
  c = ' ' || c = ' ' || (' ' ≤ c && c ≤ ' ') ||
  c = ' ' || c = ' ' || c = ' ' || c = ' ' ||
  c = '　' || c = '﻿'

/-- The first alternative of the split regex `[\n,;\t]+|\s{2,}`. -/
def isHardDelim (c : Char) : Bool := c = '\n' || c = ',' || c = ';' || c = '\t'

/-- The character class `[\d\s\-()]` of the embedded-number regex. -/
def isClassChar (c : Char) : Bool :=
  isJsDigit c || isJsWs c || c = '-' || c = '(' || c = ')'

/-- `input.replace(/ /g, " ")`. -/
def normalizeNbsp (l : List Char) : List Char :=
  l.map (fun c => if c = ' ' then ' ' else c)

/-- JS `String.prototype.trim`: drop leading and trailing whitespace. -/
def trimList (l : List Char) : List Char :=
  ((l.dropWhile isJsWs).reverse.dropWhile isJsWs).reverse

/-- Length of the match of `[\n,;\t]+|\s{2,}` at the head of `l`, if any.
The first alternative is tried first and both are greedy, as in JS. -/
def delimLen (l : List Char) : Option Nat :=
  match l with
  | [] => none
  | c :: _ =>
    if isHardDelim c then some (l.takeWhile isHardDelim).length
    else if isJsWs c then
      if 2 ≤ (l.takeWhile isJsWs).length then some (l.takeWhile isJsWs).length
      else none
    else none

/-- `input.split(/[\n,;\t]+|\s{2,}/g)`: walk the text, cutting a piece at
every leftmost delimiter match.  Fueled by the text length (each step
consumes at least one character). -/
def splitGo : Nat → List Char → List Char → List (List Char)
  | _, cur, [] => [cur.reverse]
  | 0, cur, l => [cur.reverse ++ l]
  | fuel + 1, cur, c :: rest =>
    match delimLen (c :: rest) with
    | some n => cur.reverse :: splitGo fuel [] (rest.drop (n - 1))
    | none => splitGo fuel (c :: cur) rest

/-- The delimiter-split half of the tokenizer: normalize U+00A0 to a
space, split, trim each piece and drop the falsy (empty) ones. -/
def splitCandidates (input : String) : List String :=
  ((((splitGo input.data.length [] (normalizeNbsp input.data)).map trimList).map
    String.mk).filter (fun s => !s.isEmpty))

/-- `run` with its trailing non-digits removed: the part of a greedy
`[\d\s\-()]{5,}` run that the backtracking step keeps so that the final
`\d` of the embedded-number regex can match. -/
def matchCore (run : List Char) : List Char :=
  (run.reverse.dropWhile (fun c => !isJsDigit c)).reverse

/-- Number of characters matched by `\d[\d\s\-()]{5,}\d` at the head of
`l`, if it matches there: one digit plus the kept class run (which must
retain at least six characters and end in a digit). -/
def bodyAt (l : List Char) : Option Nat :=
  match l with
  | [] => none
  | c :: rest =>
    if isJsDigit c then
      if 6 ≤ (matchCore (rest.takeWhile isClassChar)).length then
        some ((matchCore (rest.takeWhile isClassChar)).length + 1)
      else none
    else none

/-- Number of characters matched by `[+]?\d[\d\s\-()]{5,}\d` at the head
of `l`, if it matches there.  The optional `+` is greedy; if the body
fails after a `+` the position fails altogether (a `+` is not a digit). -/
def matchLen (l : List Char) : Option Nat :=
  match l with
  | '+' :: rest =>
    match bodyAt rest with
    | some n => some (n + 1)
    | none => none
  | _ => bodyAt l

/-- `input.matchAll(/[+]?\d[\d\s\-()]{5,}\d/g)`: scan left to right; a
match is emitted and the scan resumes after it, otherwise move one
character forward.  Fueled by the text length. -/
def scanGo : Nat → List Char → List (List Char)
  | 0, _ => []
  | _ + 1, [] => []
  | fuel + 1, c :: rest =>
    match matchLen (c :: rest) with
    | some n => (c :: rest).take n :: scanGo fuel (rest.drop (n - 1))
    | none => scanGo fuel rest

/-- All embedded-number matches of the original (un-normalized) text. -/
def scanMatches (l : List Char) : List (List Char) := scanGo l.length l

/-- The embedded-match half of the tokenizer:
`Array.from(input.matchAll(...)).map(m => m[0].trim())`. -/
def embeddedTokens (input : String) : List String :=
  ((scanMatches input.data).map trimList).map String.mk

/-- First-occurrence deduplication keyed by `key`, carrying the set of
already-seen keys (the `seen`/`dedup` loop of the source, and also
`Array.from(new Set(...))` when `key` is the identity). -/
def dedupGo {α : Type} (key : α → String) (seen : List String) :
    List α → List α
  | [] => []
  | x :: xs =>
    if key x ∈ seen then dedupGo key seen xs
    else x :: dedupGo key (key x :: seen) xs

/-- `tokenize` from the source: the duplicate-free union of the
delimiter-split pieces (over the NBSP-normalized text) and the embedded
matches (over the original text), first occurrences first. -/
def tokenize (input : String) : List String :=
  dedupGo id [] (splitCandidates input ++ embeddedTokens input)

/-- The character class `[\d+]` kept by the cleaner. -/
def keepDigitPlus (c : Char) : Bool := isJsDigit c || c = '+'

/-- `cleanToken` from the source: keep only digits and `+`; if a `+`
survives, collapse all of them into one leading `+` and strip the zeros
right after it; otherwise return the digits unchanged. -/
def cleanToken (token : String) : String :=
  let t := token.data.filter keepDigitPlus
  if '+' ∈ t then
    String.mk ('+' :: (t.filter (fun c => c ≠ '+')).dropWhile (fun c => c = '0'))
  else String.mk t

/-- The parsed-number object returned by the numbering-plan authority:
`phone.number`, `phone.isValid()`, `phone.formatInternational()`,
`phone.formatNational()`, `phone.country` (which the library may leave
undefined). -/
structure PhoneNumber where
  number : String
  isValid : Bool
  formatInternational : String
  formatNational : String
  country : Option String
  deriving DecidableEq, Repr

/-- The numbering-plan authority as a pair of deterministic functions:
`parsePhoneNumberFromString(s, region)` (returning `undefined` — here
`none` — on anything unparseable, exceptions included) and the free
function `isValidNumberForRegion(number, region)`. -/
structure Authority where
  parsePhoneNumberFromString : String → String → Option PhoneNumber
  isValidNumberForRegion : String → String → Bool

/-- `ParsedRow` from the source. -/
structure ParsedRow where
  raw : String
  cleaned : String
  valid : Bool
  e164 : Option String
  international : Option String
  national : Option String
  country : Option String
  deriving DecidableEq, Repr

/-- The pipeline configuration: default region, `onlyValid` filter
toggle, sort direction. -/
structure Config where
  defaultCountry : String
  onlyValid : Bool
  sortAsc : Bool

/-- JS truthiness of an optional string field: present and non-empty. -/
def truthyStr (o : Option String) : Bool :=
  match o with
  | some s => !s.isEmpty
  | none => false

/-- `o || d` on an optional string field, with JS truthiness. -/
def orTruthy (o : Option String) (d : String) : String :=
  match o with
  | some s => if s.isEmpty then d else s
  | none => d

/-- The per-token body of `tokens.map(...)` in the source: clean the
token, ask the authority to parse it, compute `valid` as the OR of the
region-specific and the general check, and populate the canonical
fields only when the general check passes. -/
def parseToken (auth : Authority) (defaultCountry : String) (tok : String) :
    ParsedRow :=
  let cleaned := cleanToken tok
  match auth.parsePhoneNumberFromString cleaned defaultCountry with
  | none =>
    { raw := tok, cleaned := cleaned, valid := false, e164 := none,
      international := none, national := none, country := none }
  | some phone =>
    let valid := auth.isValidNumberForRegion phone.number defaultCountry ||
      phone.isValid
    if phone.isValid then
      { raw := tok, cleaned := cleaned, valid := valid,
        e164 := some phone.number,
        international := some phone.formatInternational,
        national := some phone.formatNational, country := phone.country }
    else
      { raw := tok, cleaned := cleaned, valid := valid, e164 := none,
        international := none, national := none, country := none }

/-- The `parsed` stage of `rows`. -/
def parsedRows (auth : Authority) (cfg : Config) (rawText : String) :
    List ParsedRow :=
  (tokenize rawText).map (parseToken auth cfg.defaultCountry)

/-- The `filtered` stage of `rows`:
`onlyValid ? parsed.filter(r => r.valid && r.e164) : parsed`. -/
def filteredRows (auth : Authority) (cfg : Config) (rawText : String) :
    List ParsedRow :=
  if cfg.onlyValid then
    (parsedRows auth cfg rawText).filter (fun r => r.valid && truthyStr r.e164)
  else parsedRows auth cfg rawText

/-- The deduplication key `r.e164 || r.cleaned`. -/
def dedupKey (r : ParsedRow) : String := orTruthy r.e164 r.cleaned

/-- The `dedup` stage of `rows`: keep the first record per key. -/
def dedupRows (auth : Authority) (cfg : Config) (rawText : String) :
    List ParsedRow :=
  dedupGo dedupKey [] (filteredRows auth cfg rawText)

/-- The sort key `(r.e164 || r.cleaned).replace(/\D/g, "")`. -/
def sortKey (r : ParsedRow) : String :=
  String.mk ((orTruthy r.e164 r.cleaned).data.filter isJsDigit)

/-- JS `<` on two strings, as an executable lexicographic comparison of
the character sequences (shorter prefix sorts first). -/
def strLtB : List Char → List Char → Bool
  | [], [] => false
  | [], _ :: _ => true
  | _ :: _, [] => false
  | a :: as, b :: bs =>
    if decide (a < b) then true
    else if decide (b < a) then false
    else strLtB as bs

/-- The comparator passed to `dedup.sort`:
`(A < B ? -1 : 1) * (sortAsc ? 1 : -1)`. -/
def cmpRows (sortAsc : Bool) (a b : ParsedRow) : Int :=
  (if strLtB (sortKey a).data (sortKey b).data then (-1 : Int) else 1) *
    (if sortAsc then 1 else -1)

/-- The order the comparator is meant to realise: keys non-decreasing
when ascending, non-increasing when descending (lexicographic comparison
of the digit-only strings, not numeric comparison). -/
def keyOrder (sortAsc : Bool) (a b : ParsedRow) : Prop :=
  if sortAsc then sortKey a ≤ sortKey b else sortKey b ≤ sortKey a

/-- Comparator-driven merge: the element compared not-greater goes
first.  Fueled by the total length. -/
def jsMergeGo (cmp : ParsedRow → ParsedRow → Int) :
    Nat → List ParsedRow → List ParsedRow → List ParsedRow
  | 0, xs, ys => xs ++ ys
  | fuel + 1, xs, ys =>
    match xs, ys with
    | [], ys => ys
    | xs, [] => xs
    | x :: xs, y :: ys =>
      if cmp x y ≤ 0 then x :: jsMergeGo cmp fuel xs (y :: ys)
      else y :: jsMergeGo cmp fuel (x :: xs) ys

/-- Merge with always-sufficient fuel. -/
def jsMerge (cmp : ParsedRow → ParsedRow → Int) (xs ys : List ParsedRow) :
    List ParsedRow :=
  jsMergeGo cmp (xs.length + ys.length) xs ys

/-- `Array.prototype.sort(cmp)` modelled as top-down merge sort.  Fueled
by the list length (the recursion depth is far smaller). -/
def jsMergeSortGo (cmp : ParsedRow → ParsedRow → Int) :
    Nat → List ParsedRow → List ParsedRow
  | 0, l => l
  | fuel + 1, l =>
    if l.length ≤ 1 then l
    else
      jsMerge cmp (jsMergeSortGo cmp fuel (l.take (l.length / 2)))
        (jsMergeSortGo cmp fuel (l.drop (l.length / 2)))

/-- `Array.prototype.sort(cmp)` with always-sufficient fuel. -/
def jsMergeSort (cmp : ParsedRow → ParsedRow → Int) (l : List ParsedRow) :
    List ParsedRow :=
  jsMergeSortGo cmp l.length l

/-- The flat pipeline output `rows`. -/
def rows (auth : Authority) (cfg : Config) (rawText : String) :
    List ParsedRow :=
  jsMergeSort (cmpRows cfg.sortAsc) (dedupRows auth cfg rawText)

/-- The grouping key `r.country || "Unknown"`. -/
def groupKey (r : ParsedRow) : String := orTruthy r.country "Unknown"

/-- `map[c].push(r)`, creating the key at the end when absent: one step
of the grouping loop over an insertion-ordered association list. -/
def insertGroup (k : String) (r : ParsedRow) :
    List (String × List ParsedRow) → List (String × List ParsedRow)
  | [] => [(k, [r])]
  | (k', g) :: rest =>
    if k' = k then (k', g ++ [r]) :: rest
    else (k', g) :: insertGroup k r rest

/-- The grouping loop of the `grouped` memo. -/
def groupRows (l : List ParsedRow) : List (String × List ParsedRow) :=
  l.foldl (fun m r => insertGroup (groupKey r) r m) []

/-- The grouped pipeline output. -/
def grouped (auth : Authority) (cfg : Config) (rawText : String) :
    List (String × List ParsedRow) :=
  groupRows (rows auth cfg rawText)

/-- Modelled from the words of claim C8, not from the source: the
tokenizer with the embedded-number scan running over the NBSP-normalized
text instead of the original text.  To be compared with `tokenize`. -/
def tokenizeClaimed (input : String) : List String :=
  dedupGo id []
    (splitCandidates input ++
      (((scanMatches (normalizeNbsp input.data)).map trimList).map String.mk))

/-- The body shape of an embedded-number match: a digit followed by at
least six characters of the class `[\d\s\-()]` — i.e. five or more class
characters and then a final digit. -/
def coreShapeB : List Char → Bool
  | d :: body =>
    isJsDigit d && body.all isClassChar && decide (6 ≤ body.length) &&
      (match body.getLast? with
       | some c => isJsDigit c
       | none => false)
  | [] => false

/-- The full shape of an embedded-number match: an optional leading `+`
and then a match body. -/
def matchShapeB (m : List Char) : Bool :=
  match m with
  | '+' :: rest => coreShapeB rest
  | _ => coreShapeB m

/-- A concrete authority for witnesses: parses exactly the string
"+123456" into a generally-valid number of country "XX"; its
region-specific check accepts nothing. -/
def authA : Authority :=
  { parsePhoneNumberFromString := fun s _ =>
      if s = "+123456" then
        some { number := "+123456", isValid := true,
               formatInternational := "+123 456", formatNational := "123456",
               country := some "XX" }
      else none,
    isValidNumberForRegion := fun _ _ => false }

/-- An authority edge case permitted by the oracle contract: every string
parses, the region-specific check accepts everything, yet the general
check `isValid` rejects everything. -/
def authRegionOnly : Authority :=
  { parsePhoneNumberFromString := fun _ _ =>
      some { number := "+1", isValid := false, formatInternational := "",
             formatNational := "", country := none },
    isValidNumberForRegion := fun _ _ => true }

/-- An authority that can parse nothing at all. -/
def authNone : Authority :=
  { parsePhoneNumberFromString := fun _ _ => none,
    isValidNumberForRegion := fun _ _ => false }

/-- The phone-number object `authA` returns for "+123456". -/
def phXX : PhoneNumber :=
  { number := "+123456", isValid := true, formatInternational := "+123 456",
    formatNational := "123456", country := some "XX" }

/-- The record the pipeline produces for the token "+123456" under
`authA`. -/
def rowPlus : ParsedRow :=
  { raw := "+123456", cleaned := "+123456", valid := true,
    e164 := some "+123456", international := some "+123 456",
    national := some "123456", country := some "XX" }

/-- The record the pipeline produces for the token "123456" under
`authA` (unparseable, hence invalid). -/
def rowPlain : ParsedRow :=
  { raw := "123456", cleaned := "123456", valid := false, e164 := none,
    international := none, national := none, country := none }

/-- A configuration with the `onlyValid` filter off. -/
def cfgAll : Config :=
  { defaultCountry := "NP", onlyValid := false, sortAsc := true }

/-- A configuration with the `onlyValid` filter on. -/
def cfgValid : Config :=
  { defaultCountry := "NP", onlyValid := true, sortAsc := true }

/-! ### Helper lemmas about first-occurrence deduplication -/

theorem head?_dropWhile_false {α : Type} (p : α → Bool) :
    ∀ (l : List α) {c : α}, (l.dropWhile p).head? = some c → p c = false := by
  intro l
  induction l with
  | nil => intro c h; simp [List.dropWhile] at h
  | cons a l ih =>
    intro c h
    by_cases hp : p a
    · rw [List.dropWhile_cons, if_pos hp] at h; exact ih h
    · rw [List.dropWhile_cons, if_neg hp] at h
      simp only [List.head?_cons, Option.some.injEq] at h
      subst h
      simpa using hp

theorem dedupGo_not_seen {α : Type} (key : α → String) :
    ∀ (l : List α) (seen : List String) (x : α),
      x ∈ dedupGo key seen l → key x ∉ seen := by
  intro l
  induction l with
  | nil => intro seen x h; simp [dedupGo] at h
  | cons a l ih =>
    intro seen x h
    simp only [dedupGo] at h
    by_cases ha : key a ∈ seen
    · rw [if_pos ha] at h; exact ih seen x h
    · rw [if_neg ha] at h
      rcases List.mem_cons.mp h with rfl | hx
      · exact ha
      · intro hxseen
        exact ih _ x hx (List.mem_cons_of_mem _ hxseen)

theorem dedupGo_sublist {α : Type} (key : α → String) :
    ∀ (l : List α) (seen : List String), (dedupGo key seen l).Sublist l := by
  intro l
  induction l with
  | nil => intro seen; simp [dedupGo]
  | cons a l ih =>
    intro seen
    simp only [dedupGo]
    by_cases ha : key a ∈ seen
    · rw [if_pos ha]
      exact (ih seen).trans (List.sublist_cons_self a l)
    · rw [if_neg ha]
      exact (ih _).cons₂ a

theorem dedupGo_map_key {α : Type} (key : α → String) :
    ∀ (l : List α) (seen : List String),
      (dedupGo key seen l).map key = dedupGo id seen (l.map key) := by
  intro l
  induction l with
  | nil => intro seen; simp [dedupGo]
  | cons a l ih =>
    intro seen
    simp only [List.map_cons, dedupGo, id_eq]
    by_cases ha : key a ∈ seen
    · rw [if_pos ha, if_pos ha]; exact ih seen
    · rw [if_neg ha, if_neg ha, List.map_cons, ih]

theorem dedupGo_key_nodup {α : Type} (key : α → String) :
    ∀ (l : List α) (seen : List String), ((dedupGo key seen l).map key).Nodup := by
  intro l
  induction l with
  | nil => intro seen; simp [dedupGo]
  | cons a l ih =>
    intro seen
    simp only [dedupGo]
    by_cases ha : key a ∈ seen
    · rw [if_pos ha]; exact ih seen
    · rw [if_neg ha]
      simp only [List.map_cons, List.nodup_cons]
      refine ⟨?_, ih _⟩
      intro hmem
      rcases List.mem_map.mp hmem with ⟨x, hx, hkey⟩
      exact dedupGo_not_seen key l _ x hx
        (by rw [hkey]; exact List.mem_cons_self _ _)

theorem dedupGo_first {α : Type} (key : α → String) :
    ∀ (l : List α) (seen : List String) (x : α), x ∈ dedupGo key seen l →
      ∃ pre post, l = pre ++ x :: post ∧ ∀ y ∈ pre, key y ≠ key x := by
  intro l
  induction l with
  | nil => intro seen x h; simp [dedupGo] at h
  | cons a l ih =>
    intro seen x h
    simp only [dedupGo] at h
    by_cases ha : key a ∈ seen
    · rw [if_pos ha] at h
      rcases ih seen x h with ⟨pre, post, hl, hpre⟩
      have hxs : key x ∉ seen := dedupGo_not_seen key l seen x h
      refine ⟨a :: pre, post, by rw [hl, List.cons_append], ?_⟩
      intro y hy
      rcases List.mem_cons.mp hy with rfl | hy'
      · intro hk; exact hxs (hk ▸ ha)
      · exact hpre y hy'
    · rw [if_neg ha] at h
      rcases List.mem_cons.mp h with rfl | hx
      · exact ⟨[], l, rfl, by simp⟩
      · rcases ih _ x hx with ⟨pre, post, hl, hpre⟩
        have hxs : key x ∉ key a :: seen := dedupGo_not_seen key l _ x hx
        refine ⟨a :: pre, post, by rw [hl, List.cons_append], ?_⟩
        intro y hy
        rcases List.mem_cons.mp hy with rfl | hy'
        · intro hk
          exact hxs (by rw [← hk]; exact List.mem_cons_self _ _)
        · exact hpre y hy'

theorem dedupGo_id_mem_of :
    ∀ (l : List String) (seen : List String) (k : String),
      k ∈ l → k ∉ seen → k ∈ dedupGo id seen l := by
  intro l
  induction l with
  | nil => intro seen k h; simp at h
  | cons a l ih =>
    intro seen k hk hks
    simp only [dedupGo, id_eq]
    by_cases ha : a ∈ seen
    · rw [if_pos ha]
      rcases List.mem_cons.mp hk with rfl | hk'
      · exact absurd ha hks
      · exact ih seen k hk' hks
    · rw [if_neg ha]
      by_cases hka : k = a
      · rw [hka]; exact List.mem_cons_self _ _
      · rcases List.mem_cons.mp hk with rfl | hk'
        · exact absurd rfl hka
        · refine List.mem_cons_of_mem _ (ih _ k hk' ?_)
          intro hmem
          rcases List.mem_cons.mp hmem with h1 | h2
          · exact hka h1
          · exact hks h2

theorem dedupGo_id_mem (l seen : List String) (k : String) :
    k ∈ dedupGo id seen l ↔ k ∈ l ∧ k ∉ seen := by
  constructor
  · intro h
    refine ⟨(dedupGo_sublist id l seen).subset h, ?_⟩
    have := dedupGo_not_seen id l seen k h
    simpa using this
  · rintro ⟨h1, h2⟩
    exact dedupGo_id_mem_of l seen k h1 h2

theorem dedupGo_id_append_one :
    ∀ (l : List String) (seen : List String) (k : String),
      dedupGo id seen (l ++ [k]) =
        dedupGo id seen l ++ (if k ∈ seen ∨ k ∈ l then [] else [k]) := by
  intro l
  induction l with
  | nil =>
    intro seen k
    simp only [List.nil_append, dedupGo, id_eq]
    by_cases hk : k ∈ seen
    · simp [hk]
    · simp [hk]
  | cons a l ih =>
    intro seen k
    simp only [List.cons_append, dedupGo, id_eq, List.append_eq]
    by_cases ha : a ∈ seen
    · rw [if_pos ha, if_pos ha, ih seen k]
      have hiff : (k ∈ seen ∨ k ∈ a :: l) ↔ (k ∈ seen ∨ k ∈ l) := by
        constructor
        · rintro (h | h)
          · exact Or.inl h
          · rcases List.mem_cons.mp h with rfl | h'
            · exact Or.inl ha
            · exact Or.inr h'
        · rintro (h | h)
          · exact Or.inl h
          · exact Or.inr (List.mem_cons_of_mem _ h)
      rw [if_congr hiff rfl rfl]
    · rw [if_neg ha, if_neg ha, ih _ k, List.cons_append]
      have hiff : (k ∈ a :: seen ∨ k ∈ l) ↔ (k ∈ seen ∨ k ∈ a :: l) := by
        simp only [List.mem_cons]
        tauto
      rw [if_congr hiff rfl rfl]

/-! ### Helper lemmas about the comparator-driven merge sort -/

theorem jsMergeGo_perm (cmp : ParsedRow → ParsedRow → Int) :
    ∀ (fuel : Nat) (xs ys : List ParsedRow),
      (jsMergeGo cmp fuel xs ys).Perm (xs ++ ys) := by
  intro fuel
  induction fuel with
  | zero => intro xs ys; simp [jsMergeGo]
  | succ fuel ih =>
    intro xs ys
    cases xs with
    | nil => simp [jsMergeGo]
    | cons x xs =>
      cases ys with
      | nil => simp [jsMergeGo]
      | cons y ys =>
        simp only [jsMergeGo]
        by_cases h : cmp x y ≤ 0
        · rw [if_pos h]
          exact (ih xs (y :: ys)).cons x
        · rw [if_neg h]
          refine ((ih (x :: xs) ys).cons y).trans ?_
          exact List.perm_middle.symm

theorem jsMerge_perm (cmp : ParsedRow → ParsedRow → Int)
    (xs ys : List ParsedRow) : (jsMerge cmp xs ys).Perm (xs ++ ys) :=
  jsMergeGo_perm cmp _ xs ys

theorem jsMergeGo_pairwise {R : ParsedRow → ParsedRow → Prop}
    (cmp : ParsedRow → ParsedRow → Int)
    (hle : ∀ a b, cmp a b ≤ 0 → R a b)
    (hgt : ∀ a b, ¬ cmp a b ≤ 0 → R b a)
    (htrans : ∀ a b c, R a b → R b c → R a c) :
    ∀ (fuel : Nat) (xs ys : List ParsedRow), xs.length + ys.length ≤ fuel →
      List.Pairwise R xs → List.Pairwise R ys →
      List.Pairwise R (jsMergeGo cmp fuel xs ys) := by
  intro fuel
  induction fuel with
  | zero =>
    intro xs ys hlen hxs hys
    have hx0 : xs = [] := List.length_eq_zero.mp (by omega)
    have hy0 : ys = [] := List.length_eq_zero.mp (by omega)
    subst hx0; subst hy0
    simp [jsMergeGo]
  | succ fuel ih =>
    intro xs ys hlen hxs hys
    cases xs with
    | nil => simpa [jsMergeGo] using hys
    | cons x xs =>
      cases ys with
      | nil => simpa [jsMergeGo] using hxs
      | cons y ys =>
        simp only [jsMergeGo]
        rcases List.pairwise_cons.mp hxs with ⟨hx, hxs'⟩
        rcases List.pairwise_cons.mp hys with ⟨hy, hys'⟩
        by_cases h : cmp x y ≤ 0
        · rw [if_pos h]
          refine List.pairwise_cons.mpr ⟨?_, ?_⟩
          · intro z hz
            have hz' : z ∈ xs ++ y :: ys :=
              (jsMergeGo_perm cmp fuel xs (y :: ys)).mem_iff.mp hz
            rcases List.mem_append.mp hz' with hzx | hzy
            · exact hx z hzx
            · rcases List.mem_cons.mp hzy with rfl | hzy'
              · exact hle x z h
              · exact htrans x y z (hle x y h) (hy z hzy')
          · refine ih xs (y :: ys) ?_ hxs' hys
            simp only [List.length_cons] at hlen ⊢
            omega
        · rw [if_neg h]
          refine List.pairwise_cons.mpr ⟨?_, ?_⟩
          · intro z hz
            have hz' : z ∈ (x :: xs) ++ ys :=
              (jsMergeGo_perm cmp fuel (x :: xs) ys).mem_iff.mp hz
            rcases List.mem_append.mp hz' with hzx | hzy
            · rcases List.mem_cons.mp hzx with rfl | hzx'
              · exact hgt z y h
              · exact htrans y x z (hgt x y h) (hx z hzx')
            · exact hy z hzy
          · refine ih (x :: xs) ys ?_ hxs hys'
            simp only [List.length_cons] at hlen ⊢
            omega

theorem jsMerge_pairwise {R : ParsedRow → ParsedRow → Prop}
    (cmp : ParsedRow → ParsedRow → Int)
    (hle : ∀ a b, cmp a b ≤ 0 → R a b)
    (hgt : ∀ a b, ¬ cmp a b ≤ 0 → R b a)
    (htrans : ∀ a b c, R a b → R b c → R a c)
    (xs ys : List ParsedRow) (hxs : List.Pairwise R xs)
    (hys : List.Pairwise R ys) : List.Pairwise R (jsMerge cmp xs ys) :=
  jsMergeGo_pairwise cmp hle hgt htrans _ xs ys (le_refl _) hxs hys

theorem jsMergeSortGo_perm (cmp : ParsedRow → ParsedRow → Int) :
    ∀ (fuel : Nat) (l : List ParsedRow), (jsMergeSortGo cmp fuel l).Perm l := by
  intro fuel
  induction fuel with
  | zero => intro l; simp [jsMergeSortGo]
  | succ fuel ih =>
    intro l
    simp only [jsMergeSortGo]
    by_cases h : l.length ≤ 1
    · rw [if_pos h]
    · rw [if_neg h]
      have h1 := jsMerge_perm cmp (jsMergeSortGo cmp fuel (l.take (l.length / 2)))
        (jsMergeSortGo cmp fuel (l.drop (l.length / 2)))
      have h2 := (ih (l.take (l.length / 2))).append (ih (l.drop (l.length / 2)))
      have h3 := h1.trans h2
      rwa [List.take_append_drop] at h3

theorem jsMergeSortGo_pairwise {R : ParsedRow → ParsedRow → Prop}
    (cmp : ParsedRow → ParsedRow → Int)
    (hle : ∀ a b, cmp a b ≤ 0 → R a b)
    (hgt : ∀ a b, ¬ cmp a b ≤ 0 → R b a)
    (htrans : ∀ a b c, R a b → R b c → R a c) :
    ∀ (fuel : Nat) (l : List ParsedRow), l.length ≤ fuel →
      List.Pairwise R (jsMergeSortGo cmp fuel l) := by
  intro fuel
  induction fuel with
  | zero =>
    intro l hlen
    have h0 : l = [] := List.length_eq_zero.mp (by omega)
    subst h0
    simp [jsMergeSortGo]
  | succ fuel ih =>
    intro l hlen
    simp only [jsMergeSortGo]
    by_cases h : l.length ≤ 1
    · rw [if_pos h]
      cases l with
      | nil => simp
      | cons a l' =>
        cases l' with
        | nil => simp
        | cons b l'' => simp only [List.length_cons] at h; omega
    · rw [if_neg h]
      refine jsMerge_pairwise cmp hle hgt htrans _ _ (ih _ ?_) (ih _ ?_)
      · simp only [List.length_take]
        omega
      · simp only [List.length_drop]
        omega

theorem jsMergeSort_perm (cmp : ParsedRow → ParsedRow → Int)
    (l : List ParsedRow) : (jsMergeSort cmp l).Perm l :=
  jsMergeSortGo_perm cmp l.length l

theorem jsMergeSort_pairwise {R : ParsedRow → ParsedRow → Prop}
    (cmp : ParsedRow → ParsedRow → Int)
    (hle : ∀ a b, cmp a b ≤ 0 → R a b)
    (hgt : ∀ a b, ¬ cmp a b ≤ 0 → R b a)
    (htrans : ∀ a b c, R a b → R b c → R a c)
    (l : List ParsedRow) : List.Pairwise R (jsMergeSort cmp l) :=
  jsMergeSortGo_pairwise cmp hle hgt htrans l.length l (le_refl _)

/-! ### The comparator realises the key order -/

theorem strLtB_iff_lt : ∀ (xs ys : List Char), strLtB xs ys = true ↔ List.lt xs ys := by
  intro xs
  induction xs with
  | nil =>
    intro ys
    cases ys with
    | nil =>
      simp only [strLtB]
      constructor
      · intro h; simp at h
      · intro h; cases h
    | cons b bs =>
      simp only [strLtB]
      constructor
      · intro _; exact List.lt.nil b bs
      · intro _; trivial
  | cons a as ih =>
    intro ys
    cases ys with
    | nil =>
      simp only [strLtB]
      constructor
      · intro h; simp at h
      · intro h; cases h
    | cons b bs =>
      simp only [strLtB]
      by_cases hab : a < b
      · rw [if_pos (by simpa using hab)]
        constructor
        · intro _; exact List.lt.head as bs hab
        · intro _; trivial
      · rw [if_neg (by simpa using hab)]
        by_cases hba : b < a
        · rw [if_pos (by simpa using hba)]
          constructor
          · intro h; simp at h
          · intro h
            cases h with
            | head _ _ h1 => exact absurd h1 hab
            | tail _ h2 _ => exact absurd hba h2
        · rw [if_neg (by simpa using hba)]
          rw [ih bs]
          constructor
          · intro h; exact List.lt.tail hab hba h
          · intro h
            cases h with
            | head _ _ h1 => exact absurd h1 hab
            | tail _ _ h3 => exact h3

theorem strLtB_iff (a b : String) : strLtB a.data b.data = true ↔ a < b := by
  rw [String.lt_iff_toList_lt]
  simp only [String.toList]
  show _ ↔ List.Lex (fun c d => c < d) a.data b.data
  rw [← List.lt_iff_lex_lt]
  exact strLtB_iff_lt a.data b.data

theorem cmpRows_le_key {asc : Bool} {a b : ParsedRow}
    (h : cmpRows asc a b ≤ 0) : keyOrder asc a b := by
  unfold cmpRows at h
  cases asc with
  | true =>
    simp only [keyOrder, if_true]
    by_cases hlt : strLtB (sortKey a).data (sortKey b).data = true
    · exact le_of_lt ((strLtB_iff _ _).mp hlt)
    · rw [if_neg hlt] at h
      norm_num at h
  | false =>
    simp only [keyOrder, Bool.false_eq_true, if_false]
    by_cases hlt : strLtB (sortKey a).data (sortKey b).data = true
    · rw [if_pos hlt] at h
      norm_num at h
    · refine le_of_not_lt ?_
      intro hba
      exact hlt ((strLtB_iff _ _).mpr hba)

theorem cmpRows_gt_key {asc : Bool} {a b : ParsedRow}
    (h : ¬ cmpRows asc a b ≤ 0) : keyOrder asc b a := by
  unfold cmpRows at h
  cases asc with
  | true =>
    simp only [keyOrder, if_true]
    by_cases hlt : strLtB (sortKey a).data (sortKey b).data = true
    · rw [if_pos hlt] at h
      norm_num at h
    · refine le_of_not_lt ?_
      intro hba
      exact hlt ((strLtB_iff _ _).mpr hba)
  | false =>
    simp only [keyOrder, Bool.false_eq_true, if_false]
    by_cases hlt : strLtB (sortKey a).data (sortKey b).data = true
    · exact le_of_lt ((strLtB_iff _ _).mp hlt)
    · rw [if_neg hlt] at h
      norm_num at h

theorem keyOrder_trans (asc : Bool) (a b c : ParsedRow)
    (h1 : keyOrder asc a b) (h2 : keyOrder asc b c) : keyOrder asc a c := by
  cases asc with
  | true =>
    simp only [keyOrder, if_true] at h1 h2 ⊢
    exact le_trans h1 h2
  | false =>
    simp only [keyOrder, Bool.false_eq_true, if_false] at h1 h2 ⊢
    exact le_trans h2 h1

theorem rows_pairwise (auth : Authority) (cfg : Config) (raw : String) :
    List.Pairwise (keyOrder cfg.sortAsc) (rows auth cfg raw) :=
  jsMergeSort_pairwise (cmpRows cfg.sortAsc)
    (fun _ _ h => cmpRows_le_key h) (fun _ _ h => cmpRows_gt_key h)
    (keyOrder_trans cfg.sortAsc) (dedupRows auth cfg raw)

theorem rows_perm (auth : Authority) (cfg : Config) (raw : String) :
    (rows auth cfg raw).Perm (dedupRows auth cfg raw) :=
  jsMergeSort_perm (cmpRows cfg.sortAsc) (dedupRows auth cfg raw)

theorem mem_rows_iff (auth : Authority) (cfg : Config) (raw : String)
    (r : ParsedRow) :
    r ∈ rows auth cfg raw ↔ r ∈ dedupRows auth cfg raw :=
  (rows_perm auth cfg raw).mem_iff

/-! ### Helper lemmas about grouping -/

theorem filter_eq_nil_of_not_mem_map (l : List ParsedRow) (k : String)
    (h : k ∉ l.map groupKey) :
    l.filter (fun r => decide (groupKey r = k)) = [] := by
  induction l with
  | nil => rfl
  | cons a l ih =>
    simp only [List.map_cons, List.mem_cons] at h
    push_neg at h
    rw [List.filter_cons, if_neg ?_]
    · exact ih h.2
    · simp only [decide_eq_true_eq]
      exact fun he => h.1 he.symm

theorem insertGroup_not_mem (k : String) (r : ParsedRow) :
    ∀ (ks : List String) (F : String → List ParsedRow), k ∉ ks →
      insertGroup k r (ks.map (fun k' => (k', F k'))) =
        ks.map (fun k' => (k', F k')) ++ [(k, [r])] := by
  intro ks
  induction ks with
  | nil => intro F _; rfl
  | cons a ks ih =>
    intro F h
    simp only [List.mem_cons] at h
    push_neg at h
    simp only [List.map_cons, insertGroup]
    rw [if_neg (fun he => h.1 he.symm), ih F h.2, List.cons_append]

theorem insertGroup_mem (k : String) (r : ParsedRow) :
    ∀ (ks : List String) (F : String → List ParsedRow), ks.Nodup → k ∈ ks →
      insertGroup k r (ks.map (fun k' => (k', F k'))) =
        ks.map (fun k' => (k', F k' ++ if k' = k then [r] else [])) := by
  intro ks
  induction ks with
  | nil => intro F _ h; simp at h
  | cons a ks ih =>
    intro F hnd hk
    rcases List.nodup_cons.mp hnd with ⟨hna, hnd'⟩
    simp only [List.map_cons, insertGroup]
    by_cases hak : a = k
    · rw [if_pos hak, if_pos hak]
      congr 1
      refine (List.map_congr_left ?_).symm
      intro x hx
      rw [if_neg, List.append_nil]
      intro hxk
      exact hna (by rw [← hak] at hxk; exact hxk ▸ hx)
    · rw [if_neg hak]
      rcases List.mem_cons.mp hk with h1 | h2
      · exact absurd h1.symm hak
      · rw [ih F hnd' h2]
        congr 1
        rw [if_neg hak, List.append_nil]

theorem insertGroup_spec (r : ParsedRow) (pre : List ParsedRow) :
    insertGroup (groupKey r) r
        ((dedupGo id [] (pre.map groupKey)).map
          (fun k => (k, pre.filter (fun x => decide (groupKey x = k))))) =
      (dedupGo id [] ((pre ++ [r]).map groupKey)).map
        (fun k => (k, (pre ++ [r]).filter (fun x => decide (groupKey x = k)))) := by
  have hmapapp : (pre ++ [r]).map groupKey = pre.map groupKey ++ [groupKey r] := by
    simp
  rw [hmapapp, dedupGo_id_append_one]
  by_cases hk : groupKey r ∈ pre.map groupKey
  · rw [if_pos (Or.inr hk), List.append_nil]
    have hks_nodup : (dedupGo id [] (pre.map groupKey)).Nodup := by
      have h0 := dedupGo_key_nodup id (pre.map groupKey) []
      simpa using h0
    have hkmem : groupKey r ∈ dedupGo id [] (pre.map groupKey) :=
      dedupGo_id_mem_of _ _ _ hk (by simp)
    rw [insertGroup_mem (groupKey r) r _ _ hks_nodup hkmem]
    refine List.map_congr_left ?_
    intro k hkk
    rw [List.filter_append]
    congr 1
    by_cases he : k = groupKey r
    · rw [if_pos he, he]
      simp
    · rw [if_neg he]
      have hne : ¬ (groupKey r = k) := fun h2 => he h2.symm
      simp [hne]
  · have hcond : ¬ (groupKey r ∈ ([] : List String) ∨
        groupKey r ∈ pre.map groupKey) := by
      rintro (h | h)
      · simp at h
      · exact hk h
    rw [if_neg hcond, List.map_append]
    have hknotin : groupKey r ∉ dedupGo id [] (pre.map groupKey) := by
      intro hmem
      exact hk ((dedupGo_id_mem _ _ _).mp hmem).1
    rw [insertGroup_not_mem _ _ _ _ hknotin]
    congr 1
    · refine List.map_congr_left ?_
      intro k hkk
      have hkne : k ≠ groupKey r := fun he => hknotin (he ▸ hkk)
      have hne : ¬ (groupKey r = k) := fun h2 => hkne h2.symm
      congr 1
      rw [List.filter_append]
      simp [hne]
    · simp only [List.map_cons, List.map_nil]
      congr 2
      rw [List.filter_append, filter_eq_nil_of_not_mem_map pre _ hk]
      simp

theorem groupRows_spec (l : List ParsedRow) :
    groupRows l =
      (dedupGo id [] (l.map groupKey)).map
        (fun k => (k, l.filter (fun x => decide (groupKey x = k)))) := by
  suffices h : ∀ (l2 pre : List ParsedRow),
      List.foldl (fun m r => insertGroup (groupKey r) r m)
        ((dedupGo id [] (pre.map groupKey)).map
          (fun k => (k, pre.filter (fun x => decide (groupKey x = k))))) l2 =
      (dedupGo id [] ((pre ++ l2).map groupKey)).map
        (fun k => (k, (pre ++ l2).filter (fun x => decide (groupKey x = k)))) by
    have h2 := h l []
    simpa [groupRows] using h2
  intro l2
  induction l2 with
  | nil => intro pre; simp
  | cons r l2 ih =>
    intro pre
    rw [List.foldl_cons, insertGroup_spec r pre, ih (pre ++ [r])]
    simp [List.append_assoc]

theorem flatten_filter_perm :
    ∀ (ks : List String) (l : List ParsedRow), ks.Nodup →
      (∀ x ∈ l, groupKey x ∈ ks) →
      ((ks.map (fun k =>
        l.filter (fun x => decide (groupKey x = k)))).flatten).Perm l := by
  intro ks
  induction ks with
  | nil =>
    intro l _ hall
    cases l with
    | nil => simp
    | cons a l => exact absurd (hall a (List.mem_cons_self a l)) (by simp)
  | cons k ks ih =>
    intro l hnd hall
    rcases List.nodup_cons.mp hnd with ⟨hkn, hnd'⟩
    have hsplit := List.filter_append_perm (fun x => decide (groupKey x = k)) l
    have hrest : (ks.map (fun k' => l.filter (fun x => decide (groupKey x = k')))) =
        (ks.map (fun k' =>
          (l.filter (fun x => !decide (groupKey x = k))).filter
            (fun x => decide (groupKey x = k')))) := by
      refine List.map_congr_left ?_
      intro k' hk'
      rw [List.filter_filter]
      refine (List.filter_congr ?_).symm
      intro x _
      by_cases hx : groupKey x = k'
      · have hk'k : ¬ k' = k := by
          intro he
          exact hkn (by rw [← he]; exact hk')
        have hxk : ¬ (groupKey x = k) := by
          rw [hx]
          exact hk'k
        simp [hx, hxk, hk'k]
      · simp [hx]
    have hih := ih (l.filter (fun x => !decide (groupKey x = k))) hnd' ?_
    · simp only [List.map_cons, List.flatten_cons]
      rw [hrest]
      exact (List.Perm.append_left _ hih).trans hsplit
    · intro x hx
      rcases List.mem_filter.mp hx with ⟨hxl, hxk⟩
      have := hall x hxl
      rcases List.mem_cons.mp this with h1 | h2
      · simp only [Bool.not_eq_true', decide_eq_false_iff_not] at hxk
        exact absurd h1 hxk
      · exact h2

/-! ### Helper lemmas about the embedded-number scan -/

theorem matchCore_append (run : List Char) :
    run = matchCore run ++
      (run.reverse.takeWhile (fun c => !isJsDigit c)).reverse := by
  unfold matchCore
  rw [← List.reverse_append, List.takeWhile_append_dropWhile,
    List.reverse_reverse]

theorem matchCore_getLast (run : List Char) (h : matchCore run ≠ []) :
    ∃ c, (matchCore run).getLast? = some c ∧ isJsDigit c = true := by
  unfold matchCore at h ⊢
  rcases hh : (run.reverse.dropWhile (fun c => !isJsDigit c)).head? with _ | c
  · rw [List.head?_eq_none_iff] at hh
    rw [hh] at h
    simp at h
  · refine ⟨c, ?_, ?_⟩
    · rw [List.getLast?_reverse, hh]
    · have hf := head?_dropWhile_false (fun c => !isJsDigit c) run.reverse hh
      simpa using hf

theorem matchCore_subset (run : List Char) {c : Char}
    (hc : c ∈ matchCore run) : c ∈ run := by
  have h2 := matchCore_append run
  rw [h2]
  exact List.mem_append_left _ hc

theorem bodyAt_shape {l : List Char} {n : Nat} (h : bodyAt l = some n) :
    coreShapeB (l.take n) = true := by
  cases l with
  | nil => simp [bodyAt] at h
  | cons c rest =>
    simp only [bodyAt] at h
    by_cases hd : isJsDigit c
    · rw [if_pos hd] at h
      by_cases h6 : 6 ≤ (matchCore (rest.takeWhile isClassChar)).length
      · rw [if_pos h6] at h
        simp only [Option.some.injEq] at h
        subst h
        rw [List.take_succ_cons]
        have hrest : rest.take (matchCore (rest.takeWhile isClassChar)).length =
            matchCore (rest.takeWhile isClassChar) := by
          have hdecomp : rest = matchCore (rest.takeWhile isClassChar) ++
              (((rest.takeWhile isClassChar).reverse.takeWhile
                (fun c => !isJsDigit c)).reverse ++
                rest.dropWhile isClassChar) := by
            conv_lhs => rw [← List.takeWhile_append_dropWhile isClassChar rest]
            conv_lhs => rw [matchCore_append (rest.takeWhile isClassChar)]
            rw [List.append_assoc]
          set n0 := (matchCore (rest.takeWhile isClassChar)).length with hn0
          conv_lhs => rw [hdecomp]
          exact List.take_left' hn0.symm
        rw [hrest]
        have hne : matchCore (rest.takeWhile isClassChar) ≠ [] := by
          rw [← List.length_pos]
          omega
        obtain ⟨clast, hlast, hlastd⟩ :=
          matchCore_getLast (rest.takeWhile isClassChar) hne
        simp only [coreShapeB, Bool.and_eq_true, decide_eq_true_eq,
          List.all_eq_true]
        refine ⟨⟨⟨hd, fun x hx => ?_⟩, h6⟩, ?_⟩
        · exact List.mem_takeWhile_imp (matchCore_subset _ hx)
        · rw [hlast]
          exact hlastd
      · rw [if_neg h6] at h
        simp at h
    · rw [if_neg hd] at h
      simp at h

theorem matchLen_shape {l : List Char} {n : Nat} (h : matchLen l = some n) :
    matchShapeB (l.take n) = true := by
  rw [matchLen.eq_def] at h
  split at h
  · rename_i rest
    cases hb : bodyAt rest with
    | none => rw [hb] at h; simp at h
    | some m =>
      rw [hb] at h
      simp only [Option.some.injEq] at h
      subst h
      rw [List.take_succ_cons]
      have hshape := bodyAt_shape hb
      rw [matchShapeB]
      exact hshape
  · have hshape := bodyAt_shape h
    rw [matchShapeB.eq_def]
    split
    · rename_i rest' heq
      rw [heq] at hshape
      have hplus : isJsDigit '+' = false := by decide
      simp only [coreShapeB, hplus, Bool.false_and] at hshape
      exact absurd hshape (by simp)
    · exact hshape

theorem scanGo_shape :
    ∀ (fuel : Nat) (l m : List Char), m ∈ scanGo fuel l →
      matchShapeB m = true := by
  intro fuel
  induction fuel with
  | zero => intro l m h; simp [scanGo] at h
  | succ fuel ih =>
    intro l m h
    cases l with
    | nil => simp [scanGo] at h
    | cons c rest =>
      simp only [scanGo] at h
      split at h
      · rename_i n hm
        rcases List.mem_cons.mp h with rfl | h'
        · exact matchLen_shape hm
        · exact ih _ m h'
      · exact ih rest m h

/-! ### The claims -/

/-- Claim C1: for every raw text and configuration, with the
numbering-plan authority a deterministic function of (string, region),
running the full pipeline twice yields the identical flat ordered record
sequence and the identical grouped view: the pipeline is a pure function
of its two inputs, so both runs are the same value. -/
theorem pipeline_deterministic (auth : Authority) (cfg : Config)
    (raw : String) :
    rows auth cfg raw = rows auth cfg raw ∧
    grouped auth cfg raw = grouped auth cfg raw :=
  ⟨rfl, rfl⟩

/-- Claim C2: no two records of the flat output share a deduplication
key (`e164` truthy-else `cleaned`); the dedup stage is an
order-preserving sublist of the filtered sequence, its keys are exactly
the first occurrences of the filtered keys, and each record it keeps is
the first in processing order among records with its key. -/
theorem dedup_invariant (auth : Authority) (cfg : Config) (raw : String) :
    ((rows auth cfg raw).map dedupKey).Nodup ∧
    (dedupRows auth cfg raw).Sublist (filteredRows auth cfg raw) ∧
    (dedupRows auth cfg raw).map dedupKey =
      dedupGo id [] ((filteredRows auth cfg raw).map dedupKey) ∧
    ∀ x ∈ dedupRows auth cfg raw, ∃ pre post,
      filteredRows auth cfg raw = pre ++ x :: post ∧
      ∀ y ∈ pre, dedupKey y ≠ dedupKey x := by
  refine ⟨?_, ?_, ?_, ?_⟩
  · have h1 : ((rows auth cfg raw).map dedupKey).Perm
        ((dedupRows auth cfg raw).map dedupKey) :=
      (rows_perm auth cfg raw).map dedupKey
    rw [h1.nodup_iff]
    exact dedupGo_key_nodup dedupKey _ []
  · exact dedupGo_sublist dedupKey _ []
  · exact dedupGo_map_key dedupKey _ []
  · intro x hx
    exact dedupGo_first dedupKey _ [] x hx

/-- Witness for claim C2 at a concrete input: the record for "+123456"
is kept and is the first with its key among the filtered records. -/
theorem dedup_invariant_witness :
    ∃ pre post,
      filteredRows authA cfgAll "+123456,123456" = pre ++ rowPlus :: post ∧
      ∀ y ∈ pre, dedupKey y ≠ dedupKey rowPlus :=
  (dedup_invariant authA cfgAll "+123456,123456").2.2.2 rowPlus (by decide)

/-- Claim C3: with `onlyValid` on, every output record has `valid = true`
and a non-empty `e164`. -/
theorem filter_invariant (auth : Authority) (cfg : Config) (raw : String)
    (honly : cfg.onlyValid = true) :
    ∀ r ∈ rows auth cfg raw,
      r.valid = true ∧ ∃ s, r.e164 = some s ∧ s ≠ "" := by
  intro r hr
  have h1 : r ∈ dedupRows auth cfg raw :=
    (mem_rows_iff auth cfg raw r).mp hr
  have h2 : r ∈ filteredRows auth cfg raw :=
    (dedupGo_sublist dedupKey _ []).subset h1
  rw [filteredRows, if_pos honly] at h2
  rcases List.mem_filter.mp h2 with ⟨_, hp⟩
  rw [Bool.and_eq_true] at hp
  rcases hp with ⟨hv, ht⟩
  refine ⟨hv, ?_⟩
  cases he : r.e164 with
  | none =>
    rw [he] at ht
    simp only [truthyStr] at ht
    exact absurd ht (by decide)
  | some s =>
    refine ⟨s, rfl, ?_⟩
    intro hs
    rw [he, hs] at ht
    simp only [truthyStr] at ht
    exact absurd ht (by decide)

/-- Witness for claim C3 at a concrete input. -/
theorem filter_invariant_witness :
    rowPlus.valid = true ∧ ∃ s, rowPlus.e164 = some s ∧ s ≠ "" :=
  filter_invariant authA cfgValid "+123456" rfl rowPlus (by decide)

/-- Claim C4: adjacent records of the flat output are ordered by
lexicographic string comparison of the digit-only form of the record key
(`e164` truthy-else `cleaned`) — ascending when `sortAsc` is set,
descending otherwise. -/
theorem sort_correctness (auth : Authority) (cfg : Config) (raw : String) :
    List.Chain' (keyOrder cfg.sortAsc) (rows auth cfg raw) :=
  (rows_pairwise auth cfg raw).chain'

/-- Claim C5: the grouped view maps each group key (`country`
truthy-else the sentinel "Unknown") to exactly the flat records with
that key in flat order, keys in first-encounter order, and the union of
all groups is a permutation of the flat sequence. -/
theorem grouping_completeness (auth : Authority) (cfg : Config)
    (raw : String) :
    grouped auth cfg raw =
      (dedupGo id [] ((rows auth cfg raw).map groupKey)).map
        (fun k => (k, (rows auth cfg raw).filter
          (fun r => decide (groupKey r = k)))) ∧
    (((grouped auth cfg raw).map Prod.snd).flatten).Perm
      (rows auth cfg raw) := by
  constructor
  · exact groupRows_spec (rows auth cfg raw)
  · unfold grouped
    rw [groupRows_spec, List.map_map]
    have hcomp : (Prod.snd ∘ fun k => (k, (rows auth cfg raw).filter
        (fun r => decide (groupKey r = k)))) =
        fun k => (rows auth cfg raw).filter
          (fun r => decide (groupKey r = k)) := rfl
    rw [hcomp]
    refine flatten_filter_perm _ _ ?_ ?_
    · have h0 := dedupGo_key_nodup id ((rows auth cfg raw).map groupKey) []
      simpa using h0
    · intro x hx
      rw [dedupGo_id_mem]
      exact ⟨List.mem_map_of_mem groupKey hx, by simp⟩

/-- Claim C6: the cleaner removes every character that is not a digit or
'+'; if a '+' survives it collapses all '+' into a single leading '+'
and strips the zeros immediately after it; with no '+' the digit string
is returned unchanged; consequently the result is all digits with at
most one leading '+', and no zero directly follows a leading '+'. -/
theorem cleaner_contract (tok : String) :
    ('+' ∈ tok.data.filter keepDigitPlus →
      (cleanToken tok).data =
        '+' :: (((tok.data.filter keepDigitPlus).filter
          (fun c => c ≠ '+')).dropWhile (fun c => c = '0'))) ∧
    ('+' ∉ tok.data.filter keepDigitPlus →
      (cleanToken tok).data = tok.data.filter keepDigitPlus) ∧
    ((cleanToken tok).data.all isJsDigit = true ∨
      ∃ t, (cleanToken tok).data = '+' :: t ∧ t.all isJsDigit = true ∧
        t.head? ≠ some '0') := by
  by_cases hp : '+' ∈ tok.data.filter keepDigitPlus
  · have hclean : (cleanToken tok).data =
        '+' :: (((tok.data.filter keepDigitPlus).filter
          (fun c => c ≠ '+')).dropWhile (fun c => c = '0')) := by
      simp only [cleanToken]
      rw [if_pos hp]
    refine ⟨fun _ => hclean, fun h => absurd hp h, Or.inr ⟨_, hclean, ?_, ?_⟩⟩
    · rw [List.all_eq_true]
      intro x hx
      have hx1 := (List.dropWhile_sublist (fun c => c = '0')).subset hx
      rcases List.mem_filter.mp hx1 with ⟨hx2, hxne⟩
      rcases List.mem_filter.mp hx2 with ⟨_, hkeep⟩
      simp only [decide_eq_true_eq] at hxne
      simp only [keepDigitPlus, Bool.or_eq_true, decide_eq_true_eq] at hkeep
      rcases hkeep with h | h
      · exact h
      · exact absurd h hxne
    · intro hhead
      have hz := head?_dropWhile_false (fun c => c = '0') _ hhead
      simp at hz
  · have hclean : (cleanToken tok).data = tok.data.filter keepDigitPlus := by
      simp only [cleanToken]
      rw [if_neg hp]
    refine ⟨fun h => absurd h hp, fun _ => hclean, Or.inl ?_⟩
    rw [hclean, List.all_eq_true]
    intro x hx
    rcases List.mem_filter.mp hx with ⟨_, hkeep⟩
    simp only [keepDigitPlus, Bool.or_eq_true, decide_eq_true_eq] at hkeep
    rcases hkeep with h | h
    · exact h
    · rw [h] at hx
      exact absurd hx hp

/-- Witness for claim C6 at a concrete token with '+' and zeros. -/
theorem cleaner_contract_witness :
    '+' ∈ ("+0044b5".data.filter keepDigitPlus) ∧
    (cleanToken "+0044b5").data =
      '+' :: ((("+0044b5".data.filter keepDigitPlus).filter
        (fun c => c ≠ '+')).dropWhile (fun c => c = '0')) :=
  ⟨by decide, (cleaner_contract "+0044b5").1 (by decide)⟩

/-- Claim C7 counterexample: under an authority whose region-specific
check accepts a number that the general check rejects (an edge case the
oracle contract permits), the record has `valid = true` while every
canonical field is absent — the claim as stated is false. -/
theorem canonical_fields_counterexample :
    (parseToken authRegionOnly "NP" "123").valid = true ∧
    (parseToken authRegionOnly "NP" "123").e164 = none ∧
    (parseToken authRegionOnly "NP" "123").international = none ∧
    (parseToken authRegionOnly "NP" "123").national = none ∧
    (parseToken authRegionOnly "NP" "123").country = none := by
  refine ⟨?_, ?_, ?_, ?_, ?_⟩ <;> decide

/-- Claim C7 (amended): when parsing succeeds AND the authority's
general validity check passes, the record is valid and `e164`,
`international`, `national` are populated from the authority, while
`country` equals the authority-resolved country (which the authority may
leave absent); validity through the region-specific check alone
populates nothing. -/
theorem canonical_fields_amended (auth : Authority) (region tok : String)
    (phone : PhoneNumber)
    (hp : auth.parsePhoneNumberFromString (cleanToken tok) region =
      some phone)
    (hv : phone.isValid = true) :
    (parseToken auth region tok).valid = true ∧
    (parseToken auth region tok).e164 = some phone.number ∧
    (parseToken auth region tok).international =
      some phone.formatInternational ∧
    (parseToken auth region tok).national = some phone.formatNational ∧
    (parseToken auth region tok).country = phone.country := by
  simp only [parseToken]
  rw [hp]
  simp [hv]

/-- Witness for the amended claim C7 at a concrete authority. -/
theorem canonical_fields_witness :
    (parseToken authA "NP" "+123456").valid = true ∧
    (parseToken authA "NP" "+123456").e164 = some phXX.number ∧
    (parseToken authA "NP" "+123456").international =
      some phXX.formatInternational ∧
    (parseToken authA "NP" "+123456").national =
      some phXX.formatNational ∧
    (parseToken authA "NP" "+123456").country = phXX.country :=
  canonical_fields_amended authA "NP" "+123456" phXX (by decide) rfl

/-- Claim C8 counterexample: on an input consisting of "123", a
non-breaking space U+00A0, and "456789", the embedded scan of the code
runs over the ORIGINAL text and yields a second token still containing
U+00A0, while the claimed variant (scanning the NBSP-normalized text)
yields only the normalized token: the claim as stated is false. -/
theorem tokenizer_counterexample :
    tokenize "123 456789" = ["123 456789", "123 456789"] ∧
    tokenizeClaimed "123 456789" = ["123 456789"] := by
  constructor
  · decide
  · decide

/-- Claim C8 (amended): the delimiter-split half runs on the
NBSP-normalized text but the embedded scan runs over the original text;
every embedded match is an optional leading '+', a digit, then five or
more characters drawn from digits, JS whitespace (which includes
U+00A0, not only the ordinary space), hyphen and parentheses, ending in
a digit; the tokenizer output is the duplicate-free union of split
pieces first, then embedded matches, in first-occurrence order. -/
theorem tokenizer_amended (s : String) :
    tokenize s = dedupGo id [] (splitCandidates s ++ embeddedTokens s) ∧
    ∀ m ∈ scanMatches s.data, matchShapeB m = true :=
  ⟨rfl, fun m hm => scanGo_shape _ _ m hm⟩

/-- Witness for the amended claim C8: the match recovered from prose has
the required shape. -/
theorem tokenizer_amended_witness :
    matchShapeB ("014-555-0134".data) = true :=
  (tokenizer_amended "Call me at 014-555-0134 tomorrow").2
    "014-555-0134".data (by decide)

/-- Claim C9: validation is total — the parsed stage has exactly one
record per token (no token aborts the run), and a token whose cleaned
form the authority cannot parse yields a record with `valid = false` and
every canonical field absent. -/
theorem validation_total (auth : Authority) (cfg : Config) (raw : String)
    (region tok : String) :
    (parsedRows auth cfg raw).length = (tokenize raw).length ∧
    (auth.parsePhoneNumberFromString (cleanToken tok) region = none →
      parseToken auth region tok =
        { raw := tok, cleaned := cleanToken tok, valid := false,
          e164 := none, international := none, national := none,
          country := none }) := by
  constructor
  · simp [parsedRows]
  · intro hp
    simp only [parseToken]
    rw [hp]

/-- Witness for claim C9 under the authority that parses nothing. -/
theorem validation_total_witness :
    parseToken authNone "NP" "abc" =
      { raw := "abc", cleaned := cleanToken "abc", valid := false,
        e164 := none, international := none, national := none,
        country := none } :=
  (validation_total authNone cfgAll "abc" "NP" "abc").2 rfl

/-- Claim C10: the sort comparator returns only -1 or 1, never 0; on
records with equal digit-only sort keys it returns the same value for
both argument orders, so it is not antisymmetric and does not fix their
relative order; such equal keys are reachable with `onlyValid` off — the
input "+123456,123456" under `authA` produces two distinct records, one
keyed by the e164 "+123456" and one by the cleaned "123456", whose
digit-only keys coincide. -/
theorem comparator_no_zero :
    (∀ (asc : Bool) (a b : ParsedRow),
      cmpRows asc a b = -1 ∨ cmpRows asc a b = 1) ∧
    (∀ (asc : Bool) (a b : ParsedRow), sortKey a = sortKey b →
      cmpRows asc a b = cmpRows asc b a) ∧
    rows authA cfgAll "+123456,123456" = [rowPlain, rowPlus] ∧
    sortKey rowPlain = sortKey rowPlus ∧ rowPlain ≠ rowPlus := by
  refine ⟨?_, ?_, ?_, ?_, ?_⟩
  · intro asc a b
    by_cases hlt : strLtB (sortKey a).data (sortKey b).data = true <;>
      cases asc <;> simp [cmpRows, hlt]
  · intro asc a b hab
    unfold cmpRows
    rw [hab]
  · decide
  · decide
  · decide

/-- Witness for claim C10: on the two concrete records with equal keys
the comparator returns the same value in both argument orders. -/
theorem comparator_no_zero_witness :
    cmpRows true rowPlain rowPlus = cmpRows true rowPlus rowPlain :=
  comparator_no_zero.2.1 true rowPlain rowPlus (by decide)
